import Mathlib

/-!
# Verification of the MICS free-energy estimation core

This file gives a shallow embedding, over the real numbers, of the core of
the MICS package (mixtures of independently collected samples): the
Newton-Raphson free-energy solver of `src/mics/MICS.py`, its reweighting and
perturbation engines, and the mixture orchestrator of `src/mics/mixtures.py`.
Floating-point arithmetic is modelled by exact real arithmetic.

The covariance primitives and the pseudo-inverse live in `mics/utils.py`,
which is not among the provided sources; they are modelled from the design
specification (block-averaged covariance estimators, Moore-Penrose
pseudo-inverse).  The pseudo-inverse is threaded through the development as
an explicit function parameter `pinv`, and theorems that depend on its
properties take the Moore-Penrose equations as hypotheses.
-/

namespace Mics

open Finset Matrix

/-! ## Covariance primitives (modelled from the spec)

`mics.utils.covariance` and `mics.utils.cross_covariance` are not among the
provided sources.  They are modelled from the specification: block-averaged
covariance of the mean, using non-overlapping blocks of length `bb`; the
number of blocks is `nn / bb` rounded down and partial trailing data is
discarded.  The spec does not fix the normalisation constant; we use the
population covariance of the block means divided by the number of blocks.
No claim below depends on the choice of normalisation. -/

/-- Mean of the first `nn` entries of a data row (`np.mean(..., axis=1)`). -/
noncomputable def mean (nn : ℕ) (y : ℕ → ℝ) : ℝ :=
  (∑ t in range nn, y t) / nn

/-- Mean of block `l` (of length `bb`) of a data row. -/
noncomputable def blockMean (bb : ℕ) (y : ℕ → ℝ) (l : ℕ) : ℝ :=
  (∑ j in range bb, y (l * bb + j)) / bb

/-- Deviation of the `l`-th block mean from the supplied global mean. -/
noncomputable def blockDev (bb : ℕ) (y : ℕ → ℝ) (ym : ℝ) (l : ℕ) : ℝ :=
  blockMean bb y l - ym

/-- Modelled from the spec: block-averaged estimate of the covariance of the
mean of an `ι × nn` data matrix `y` whose per-row means are `ym`, using
non-overlapping blocks of length `bb` (`mics.utils.covariance`). -/
noncomputable def covariance {ι : Type*} [Fintype ι] (nn : ℕ) (y : ι → ℕ → ℝ)
    (ym : ι → ℝ) (bb : ℕ) : Matrix ι ι ℝ :=
  Matrix.of fun k k' =>
    (∑ l in range (nn / bb), blockDev bb (y k) (ym k) l * blockDev bb (y k') (ym k') l) /
      ((nn / bb : ℕ) : ℝ) ^ 2

/-- Modelled from the spec: block-averaged cross-covariance between two data
matrices sharing the same configurations (`mics.utils.cross_covariance`). -/
noncomputable def cross_covariance {ι κ : Type*} [Fintype ι] [Fintype κ] (nn : ℕ)
    (y : ι → ℕ → ℝ) (ym : ι → ℝ) (z : κ → ℕ → ℝ) (zm : κ → ℝ) (bb : ℕ) :
    Matrix ι κ ℝ :=
  Matrix.of fun k j =>
    (∑ l in range (nn / bb), blockDev bb (y k) (ym k) l * blockDev bb (z j) (zm j) l) /
      ((nn / bb : ℕ) : ℝ) ^ 2

/-- Modelled from the spec: the Moore-Penrose equations characterising the
pseudo-inverse `X` of `A` computed by `mics.utils.pinv` (SVD-based). -/
def IsMoorePenrose {ι : Type*} [Fintype ι] [DecidableEq ι]
    (A X : Matrix ι ι ℝ) : Prop :=
  A * X * A = A ∧ X * A * X = X ∧ (A * X)ᵀ = A * X ∧ (X * A)ᵀ = X * A

/-! ## Python error values and the orchestrator validation

`mics.utils.InputError` is a configuration-error exception type; `TypeError`
and `ValueError` are Python built-ins raised by the runtime (here: by
percent-formatting of message strings). -/

/-- Exceptions relevant to the embedded fragment. -/
inductive PyError where
  | inputError : String → PyError
  | typeError : String → PyError
  | valueError : String → PyError
deriving DecidableEq, Repr

/-- The part of `mics.sample` the orchestrator validation reads: the list of
property (column) names of the sample's dataset. -/
structure PySample where
  columns : List String
deriving DecidableEq, Repr

/-- Message raised on an empty sample list (`mixtures.py` line 54). -/
def msgEmptyList : String := "list of samples is empty"

/-- Message raised on mismatched property schemas (`mixtures.py` line 65). -/
def msgDistinct : String := "provided samples have distinct properties"

/-- The validation prefix of `mixture.__init__` (`mixtures.py` lines 42-72):
fail when the sample list is empty, fail when some sample records a property
set different from the first sample's, and otherwise proceed (to the
potential-matrix construction and the solver), here returning the validated
property names. -/
def mixtureInit (samples : List PySample) : Except PyError (List String) :=
  match samples with
  | [] => .error (.inputError msgEmptyList)
  | s0 :: _ =>
      if samples.any fun s => s.columns != s0.columns then
        .error (.inputError msgDistinct)
      else
        .ok s0.columns

/-! ## Python percent-formatting (modelled)

`mixture.reweighting` (`mixtures.py` lines 148-150) guards against the
reserved property name `"f"` with

  `raise InputError("Word % is reserved for free energies" % freeEnergy)`

The message template contains the conversion specifier `"% i"` (a space
flag followed by the integer conversion `i`), not the intended `"%s"`, so
CPython raises `TypeError` while formatting the message with the string
argument `"f"`.  The fragment of percent-formatting semantics needed for
this template is modelled below. -/

/-- A Python value handed to the percent operator. -/
inductive PyVal where
  | int : Int → PyVal
  | str : String → PyVal
deriving DecidableEq, Repr

/-- String rendering of a `PyVal` (for the `s` conversion). -/
def PyVal.render : PyVal → String
  | .int n => toString n
  | .str s => s

/-- Conversion flag characters recognised by Python percent-formatting. -/
def pyFlags : List Char := [' ', '#', '0', '-', '+']

/-- Message of the `TypeError` raised by an integer conversion applied to a
non-number (modelled from CPython). -/
def msgNeedNumber : String := "%i format: a real number is required, not str"

/-- Message of the `ValueError` raised on a template ending inside a
conversion specifier (modelled from CPython). -/
def msgIncomplete : String := "incomplete format"

/-- Message of the `ValueError` raised on an unsupported conversion
character (modelled from CPython). -/
def msgUnsupported : String := "unsupported format character"

/-- Modelled from the spec (Python runtime semantics): percent-formatting of
a template against a single value, restricted to the flag characters and the
`i`, `d`, `s` and literal `%` conversions.  The boolean argument records
whether the scanner is inside a conversion specifier. -/
def pyFormatAux (a : PyVal) : Bool → List Char → Except PyError String
  | false, [] => .ok ""
  | true, [] => .error (.valueError msgIncomplete)
  | false, c :: rest =>
      if c = '%' then pyFormatAux a true rest
      else (pyFormatAux a false rest).map fun tail => String.mk [c] ++ tail
  | true, c :: rest =>
      if c ∈ pyFlags then pyFormatAux a true rest
      else if c = 'i' ∨ c = 'd' then
        match a with
        | .int n => (pyFormatAux a false rest).map fun tail => toString n ++ tail
        | .str _ => .error (.typeError msgNeedNumber)
      else if c = 's' then
        (pyFormatAux a false rest).map fun tail => a.render ++ tail
      else if c = '%' then
        (pyFormatAux a false rest).map fun tail => String.mk [c] ++ tail
      else .error (.valueError msgUnsupported)

/-- Percent-formatting of a template string against a single value. -/
def pyFormat (template : String) (a : PyVal) : Except PyError String :=
  pyFormatAux a false template.toList

/-- The reserved-name message template of `mixtures.py` line 150. -/
def reservedTemplate : String := "Word % is reserved for free energies"

/-- The reserved property name (`mixtures.py` line 148). -/
def freeEnergyName : String := "f"

/-- The reserved-property-name guard of `mixture.reweighting` (`mixtures.py`
lines 148-150): when the requested property names contain `"f"`, evaluate
the message `reservedTemplate % "f"` and raise `InputError` with it; the
message formatting itself may raise first, in which case that exception
propagates.  Otherwise the call proceeds. -/
def reweightingCheck (propNames : List String) : Except PyError Unit :=
  if freeEnergyName ∈ propNames then
    match pyFormat reservedTemplate (.str freeEnergyName) with
    | .ok msg => .error (.inputError msg)
    | .error e => .error e
  else .ok ()

/-! ## The solver loop (`MICS.__init__`, lines 49-58)

The loop computes a correction `df`, tests `any(abs(df) > tol)`, and only
when the test succeeds applies the update and recomputes `df`; there is no
iteration cap.  It is rendered as a fueled recursion: `none` means the fuel
was exhausted with the loop still running. -/

/-- One fueled run of the solver loop: compute the correction, stop and
return the current state when no component exceeds the tolerance test
`big`, otherwise apply the update and continue. -/
def solveLoop {V D : Type*} (step : V → D) (upd : V → D → V) (big : D → Prop)
    [DecidablePred big] : ℕ → V → Option V
  | 0, _ => none
  | fuel + 1, fc => if big (step fc) then solveLoop step upd big fuel (upd fc (step fc)) else some fc

/-- The state reached after `k` applied updates of the solver loop. -/
def seqF {V D : Type*} (step : V → D) (upd : V → D → V) (f0 : V) : ℕ → V
  | 0 => f0
  | k + 1 => upd (seqF step upd f0 k) (step (seqF step upd f0 k))

/-- The convergence test of `MICS.__init__` line 53: `any(abs(df) > tol)`. -/
def bigDf (m : ℕ) (tol : ℝ) (dfv : Fin m → ℝ) : Prop :=
  ∃ j, tol < |dfv j|

/-- The default Newton-Raphson tolerance (`MICS.__init__` line 37). -/
noncomputable def defaultTol : ℝ := 1 / 10 ^ 12

theorem seqF_shift {V D : Type*} (step : V → D) (upd : V → D → V) (f0 : V) (k : ℕ) :
    seqF step upd (upd f0 (step f0)) k = seqF step upd f0 (k + 1) := by
  induction k with
  | zero => rfl
  | succ k ih => simp only [seqF, ih]

theorem solveLoop_none {V D : Type*} (step : V → D) (upd : V → D → V) (big : D → Prop)
    [DecidablePred big] (f0 : V)
    (h : ∀ k, big (step (seqF step upd f0 k))) :
    ∀ fuel, solveLoop step upd big fuel f0 = none := by
  intro fuel
  induction fuel generalizing f0 with
  | zero => rfl
  | succ fuel ih =>
      have h0 : big (step f0) := h 0
      simp only [solveLoop, if_pos h0]
      exact ih (upd f0 (step f0)) fun k => by
        rw [seqF_shift]; exact h (k + 1)

theorem solveLoop_some {V D : Type*} (step : V → D) (upd : V → D → V) (big : D → Prop)
    [DecidablePred big] (f0 : V) (k : ℕ)
    (hrun : ∀ i < k, big (step (seqF step upd f0 i)))
    (hstop : ¬ big (step (seqF step upd f0 k))) :
    ∀ fuel, k < fuel → solveLoop step upd big fuel f0 = some (seqF step upd f0 k) := by
  induction k generalizing f0 with
  | zero =>
      intro fuel hfuel
      obtain ⟨fuel', rfl⟩ := Nat.exists_eq_add_of_lt hfuel
      have hstop' : ¬ big (step f0) := hstop
      simp only [solveLoop, if_neg hstop']
      rfl
  | succ k ih =>
      intro fuel hfuel
      obtain ⟨fuel', rfl⟩ := Nat.exists_eq_add_of_lt hfuel
      have h0 : big (step f0) := hrun 0 (Nat.succ_pos k)
      have step1 : solveLoop step upd big (k + 1 + fuel' + 1) f0 =
          solveLoop step upd big (k + 1 + fuel') (upd f0 (step f0)) := by
        simp only [solveLoop, if_pos h0]
      rw [step1]
      have hres := ih (upd f0 (step f0))
        (fun i hi => by rw [seqF_shift]; exact hrun (i + 1) (Nat.succ_lt_succ hi))
        (by rw [seqF_shift]; exact hstop)
        (k + 1 + fuel') (Nat.lt_add_right fuel' (Nat.lt_succ_self k))
      rw [hres, seqF_shift]

/-! ## The free-energy solver (`MICS.py`)

A mixture of `m + 1` samples, one per state (the `+ 1` keeps the state index
type nonempty, as required by the per-column maximum of the log-sum-exp
stabilisation; the code never runs with zero samples, see `mixtureInit`).
Data rows are total functions on `ℕ`; only the first `n i` columns of
sample `i` are ever read.  The pseudo-inverse `pinv` (from the missing
`mics.utils`) is an explicit function parameter. -/

/-- Per-sample input data of the solver: sample sizes `n`, effective sample
sizes `neff`, the reduced-potential matrices `u` (for sample `i`, `u i k t`
is state `k`'s reduced potential on configuration `t` of sample `i`), and
the block sizes `b`. -/
structure MixData (m : ℕ) where
  n : Fin (m + 1) → ℕ
  neff : Fin (m + 1) → ℝ
  u : Fin (m + 1) → Fin (m + 1) → ℕ → ℝ
  b : Fin (m + 1) → ℕ

variable {m : ℕ}

/-- Mixture composition `pi = neff / sum(neff)` (`MICS.__init__` line 42). -/
noncomputable def piv (d : MixData m) : Fin (m + 1) → ℝ :=
  fun i => d.neff i / ∑ j, d.neff j

/-- The argument `x = (f + log(pi)) - u[i]` of the softmax
(`_newton_raphson_iteration` lines 73-76). -/
noncomputable def xv (d : MixData m) (f : Fin (m + 1) → ℝ) (i k : Fin (m + 1)) (t : ℕ) : ℝ :=
  f k + Real.log (piv d k) - d.u i k t

/-- The per-column maximum `xmax = np.amax(x, axis=0)` (line 77). -/
noncomputable def xmaxv (d : MixData m) (f : Fin (m + 1) → ℝ) (i : Fin (m + 1)) (t : ℕ) : ℝ :=
  Finset.univ.sup' Finset.univ_nonempty fun k => xv d f i k t

/-- The posterior probability matrix
`P[i] = exp(x - xmax) / sum(exp(x - xmax), axis=0)` (lines 78-80). -/
noncomputable def Pv (d : MixData m) (f : Fin (m + 1) → ℝ) (i k : Fin (m + 1)) (t : ℕ) : ℝ :=
  Real.exp (xv d f i k t - xmaxv d f i t) /
    ∑ k', Real.exp (xv d f i k' t - xmaxv d f i t)

/-- The log-normaliser offsets `u0[i] = -(xmax + log(sum(exp(x - xmax))))`
(line 81). -/
noncomputable def u0v (d : MixData m) (f : Fin (m + 1) → ℝ) (i : Fin (m + 1)) (t : ℕ) : ℝ :=
  -(xmaxv d f i t + Real.log (∑ k, Real.exp (xv d f i k t - xmaxv d f i t)))

/-- The mean posterior `pm[i] = np.mean(P[i], axis=1)` (line 82). -/
noncomputable def pmv (d : MixData m) (f : Fin (m + 1) → ℝ) (i k : Fin (m + 1)) : ℝ :=
  mean (d.n i) fun t => Pv d f i k t

/-- The aggregate `p0 = sum(pi[i] * pm[i])` (line 84). -/
noncomputable def p0v (d : MixData m) (f : Fin (m + 1) → ℝ) (k : Fin (m + 1)) : ℝ :=
  ∑ i, piv d i * pmv d f i k

/-- The base covariance matrix
`B0 = np.diag(p0) - sum(pi[i] * P[i] @ P[i].T / n[i])` (line 85). -/
noncomputable def B0v (d : MixData m) (f : Fin (m + 1) → ℝ) :
    Matrix (Fin (m + 1)) (Fin (m + 1)) ℝ :=
  Matrix.diagonal (p0v d f) -
    ∑ i, piv d i •
      Matrix.of fun k k' => (∑ t in range (d.n i), Pv d f i k t * Pv d f i k' t) / d.n i

/-- `iB0 = pinv(B0)` (line 86), with the pseudo-inverse as a parameter. -/
noncomputable def iB0v (d : MixData m)
    (pinv : Matrix (Fin (m + 1)) (Fin (m + 1)) ℝ → Matrix (Fin (m + 1)) (Fin (m + 1)) ℝ)
    (f : Fin (m + 1) → ℝ) : Matrix (Fin (m + 1)) (Fin (m + 1)) ℝ :=
  pinv (B0v d f)

/-- The full Newton step `df = iB0 @ (pi - p0)` (line 87). -/
noncomputable def dfFullv (d : MixData m)
    (pinv : Matrix (Fin (m + 1)) (Fin (m + 1)) ℝ → Matrix (Fin (m + 1)) (Fin (m + 1)) ℝ)
    (f : Fin (m + 1) → ℝ) : Fin (m + 1) → ℝ :=
  iB0v d pinv f *ᵥ fun k => piv d k - p0v d f k

/-- The returned correction `df[1:m] - df[0]` (line 88). -/
noncomputable def dfv (d : MixData m)
    (pinv : Matrix (Fin (m + 1)) (Fin (m + 1)) ℝ → Matrix (Fin (m + 1)) (Fin (m + 1)) ℝ)
    (f : Fin (m + 1) → ℝ) : Fin m → ℝ :=
  fun j => dfFullv d pinv f j.succ - dfFullv d pinv f 0

/-- The update `f[1:m] += df` of `MICS.__init__` line 55: entry `0` is left
untouched and entry `j + 1` is incremented by `df j`. -/
def updF (f : Fin (m + 1) → ℝ) (dfc : Fin m → ℝ) : Fin (m + 1) → ℝ :=
  fun k => Fin.cases (f 0) (fun j => f j.succ + dfc j) k

open scoped Classical in
/-- The fueled Newton-Raphson loop of `MICS.__init__` lines 50-57, starting
from the orchestrator-supplied initial guess `f0`. -/
noncomputable def micsSolve (d : MixData m)
    (pinv : Matrix (Fin (m + 1)) (Fin (m + 1)) ℝ → Matrix (Fin (m + 1)) (Fin (m + 1)) ℝ)
    (tol : ℝ) (f0 : Fin (m + 1) → ℝ) (fuel : ℕ) : Option (Fin (m + 1) → ℝ) :=
  solveLoop (dfv d pinv) updF (bigDf m tol) fuel f0

/-- The raw covariance of the posterior probabilities,
`Sp0 = sum(pi[i]**2 * covariance(P[i], pm[i], b[i]))` (`MICS.__init__`
line 60). -/
noncomputable def Sp0v (d : MixData m) (f : Fin (m + 1) → ℝ) :
    Matrix (Fin (m + 1)) (Fin (m + 1)) ℝ :=
  ∑ i, (piv d i) ^ 2 • covariance (d.n i) (Pv d f i) (pmv d f i) (d.b i)

/-- The free-energy covariance `Theta = multi_dot([iB0, Sp0, iB0])`
(`MICS.__init__` line 61). -/
noncomputable def Thetav (d : MixData m)
    (pinv : Matrix (Fin (m + 1)) (Fin (m + 1)) ℝ → Matrix (Fin (m + 1)) (Fin (m + 1)) ℝ)
    (f : Fin (m + 1) → ℝ) : Matrix (Fin (m + 1)) (Fin (m + 1)) ℝ :=
  iB0v d pinv f * Sp0v d f * iB0v d pinv f

/-- `mixture.free_energies(reference)` (`mixtures.py` lines 101-105): the
free-energy column `f - f[reference]` and the standard-error column
`sqrt(diag(Theta) - 2 * Theta[:, reference] + Theta[reference, reference])`,
as functions of the converged `f` and `Theta`. -/
noncomputable def free_energies (M : ℕ) (f : Fin M → ℝ) (T : Matrix (Fin M) (Fin M) ℝ)
    (ref : Fin M) : (Fin M → ℝ) × (Fin M → ℝ) :=
  (fun k => f k - f ref, fun k => Real.sqrt (T k k - 2 * T k ref + T ref ref))

/-! ## The reweighting engine (`MICS.__reweight__`, lines 91-129)

`ut i t` is the target reduced potential on configuration `t` of sample `i`
(a one-row matrix in the code); `y i j t` is the value of requested property
`j` there (`q` properties).  The row index of the stacked vector
`r = concatenate((z, w))` is `Fin q ⊕ Fin 1` (the `z` rows, then the `w`
row), and the result index is `Fin 1 ⊕ Fin q` (`f`, then the properties). -/

variable (d : MixData m)
variable (pinv : Matrix (Fin (m + 1)) (Fin (m + 1)) ℝ → Matrix (Fin (m + 1)) (Fin (m + 1)) ℝ)
variable (f : Fin (m + 1) → ℝ) (ut : Fin (m + 1) → ℕ → ℝ) {q : ℕ}
variable (y : Fin (m + 1) → Fin q → ℕ → ℝ) (ref : Fin (m + 1))

/-- The importance weights `w[i] = exp(u0[i] - u[i])` (line 98). -/
noncomputable def wv (i : Fin (m + 1)) (t : ℕ) : ℝ :=
  Real.exp (u0v d f i t - ut i t)

/-- The weighted properties `z[i] = w[i] * y[i]` (line 99). -/
noncomputable def zv (i : Fin (m + 1)) (j : Fin q) (t : ℕ) : ℝ :=
  wv d f ut i t * y i j t

/-- The inverse normalising constant
`iw0 = 1 / sum(pi[i] * mean(w[i]))` (line 101). -/
noncomputable def iw0v : ℝ :=
  1 / ∑ i, piv d i * mean (d.n i) (wv d f ut i)

/-- The reweighted property expectations
`yu = sum(pi[i] * mean(z[i])) * iw0` (line 102). -/
noncomputable def yuv (j : Fin q) : ℝ :=
  (∑ i, piv d i * mean (d.n i) fun t => zv d f ut y i j t) * iw0v d f ut

/-- The target free energy `fu = log(iw0) - f[ref]` (line 103). -/
noncomputable def fuv : ℝ :=
  Real.log (iw0v d f ut) - f ref

/-- The stacked rows `r[i] = concatenate((z[i], w[i]))` (line 105). -/
noncomputable def rv (i : Fin (m + 1)) : Fin q ⊕ Fin 1 → ℕ → ℝ :=
  Sum.elim (fun j t => zv d f ut y i j t) fun _ t => wv d f ut i t

/-- The row means `rm[i] = mean(r[i], axis=1)` (line 106). -/
noncomputable def rmv (i : Fin (m + 1)) (jj : Fin q ⊕ Fin 1) : ℝ :=
  mean (d.n i) (rv d f ut y i jj)

/-- `Sp0r0 = sum(pi[i]**2 * cross_covariance(P[i], pm[i], r[i], rm[i], b[i]))`
(line 107). -/
noncomputable def Sp0r0v : Matrix (Fin (m + 1)) (Fin q ⊕ Fin 1) ℝ :=
  ∑ i, (piv d i) ^ 2 •
    cross_covariance (d.n i) (Pv d f i) (pmv d f i) (rv d f ut y i) (rmv d f ut y i) (d.b i)

/-- `Sr0 = sum(pi[i]**2 * covariance(r[i], rm[i], b[i]))` (line 108). -/
noncomputable def Sr0v : Matrix (Fin q ⊕ Fin 1) (Fin q ⊕ Fin 1) ℝ :=
  ∑ i, (piv d i) ^ 2 • covariance (d.n i) (rv d f ut y i) (rmv d f ut y i) (d.b i)

/-- The augmented covariance
`Ss0 = block([[Sp0, Sp0r0], [Sp0r0.T, Sr0]])` (line 109). -/
noncomputable def Ss0v : Matrix (Fin (m + 1) ⊕ (Fin q ⊕ Fin 1)) (Fin (m + 1) ⊕ (Fin q ⊕ Fin 1)) ℝ :=
  Matrix.fromBlocks (Sp0v d f) (Sp0r0v d f ut y) (Sp0r0v d f ut y)ᵀ (Sr0v d f ut y)

/-- `pu = sum(pi[i] * mean(w[i] * P[i], axis=1)) * iw0` (line 111). -/
noncomputable def puv (k : Fin (m + 1)) : ℝ :=
  (∑ i, piv d i * mean (d.n i) fun t => wv d f ut i t * Pv d f i k t) * iw0v d f ut

/-- `pytu = sum(pi[i] * (P[i] @ z[i].T) / n[i]) * iw0` (line 112). -/
noncomputable def pytuv : Matrix (Fin (m + 1)) (Fin q) ℝ :=
  Matrix.of fun k j =>
    (∑ i, piv d i * (∑ t in range (d.n i), Pv d f i k t * zv d f ut y i j t) / d.n i) *
      iw0v d f ut

/-- `Dyup0 = iB0 @ (outer(pu, yu) - pytu)` (line 114). -/
noncomputable def Dyup0v : Matrix (Fin (m + 1)) (Fin q) ℝ :=
  iB0v d pinv f *
    (Matrix.of fun k j => puv d f ut k * yuv d f ut y j - pytuv d f ut y k j)

/-- `pu` after the in-place `pu[ref] -= 1.0` (line 118). -/
noncomputable def puRefv (k : Fin (m + 1)) : ℝ :=
  puv d f ut k - if k = ref then 1 else 0

/-- `Dfup0 = iB0 @ pu[:, None]` with the shifted `pu` (line 119). -/
noncomputable def Dfup0v : Fin (m + 1) → ℝ :=
  iB0v d pinv f *ᵥ puRefv d f ut ref

/-- The Jacobian `G = block([[Dfup0, Dyup0], [Dfuz0, Dyuz0], [Dfuw0, Dyuw0]])`
(lines 115-125): rows indexed by `p`-components, `z`-components and the `w`
component; columns by the free energy and the properties.  `Dfuz0` is a zero
column, `Dyuz0 = diag(repeat(iw0, q))`, `Dfuw0 = iw0` and
`Dyuw0 = -yu * iw0`. -/
noncomputable def Gv : Matrix (Fin (m + 1) ⊕ (Fin q ⊕ Fin 1)) (Fin 1 ⊕ Fin q) ℝ :=
  Matrix.of fun rr cc =>
    match rr, cc with
    | .inl k, .inl _ => Dfup0v d pinv f ut ref k
    | .inl k, .inr j => Dyup0v d pinv f ut y k j
    | .inr (.inl _), .inl _ => 0
    | .inr (.inl jz), .inr j => if jz = j then iw0v d f ut else 0
    | .inr (.inr _), .inl _ => iw0v d f ut
    | .inr (.inr _), .inr j => -(yuv d f ut y j) * iw0v d f ut

/-- The propagated covariance `Theta = multi_dot([G.T, Ss0, G])` (line 127). -/
noncomputable def ThetaTv : Matrix (Fin 1 ⊕ Fin q) (Fin 1 ⊕ Fin q) ℝ :=
  (Gv d pinv f ut y ref)ᵀ * Ss0v d f ut y * Gv d pinv f ut y ref

/-- `MICS.__reweight__` (lines 91-129): the point-estimate vector
`concatenate([fu, yu])` and its covariance. -/
noncomputable def reweight : (Fin 1 ⊕ Fin q → ℝ) × Matrix (Fin 1 ⊕ Fin q) (Fin 1 ⊕ Fin q) ℝ :=
  (Sum.elim (fun _ => fuv d f ut ref) (yuv d f ut y), ThetaTv d pinv f ut y ref)

/-! ## The perturbation engine (`MICS.__perturb__`, lines 132-154) -/

/-- The weight means `wm[i] = mean(w[i], axis=1)` (line 142). -/
noncomputable def wmv (i : Fin (m + 1)) : ℝ :=
  mean (d.n i) (wv d f ut i)

/-- `Sp0w0 = sum(pi[i]**2 * cross_covariance(P[i], pm[i], w[i], wm[i], b[i]))`
(line 143); `w[i]` is a one-row matrix. -/
noncomputable def Sp0w0v : Matrix (Fin (m + 1)) (Fin 1) ℝ :=
  ∑ i, (piv d i) ^ 2 •
    cross_covariance (d.n i) (Pv d f i) (pmv d f i)
      (fun (_ : Fin 1) t => wv d f ut i t) (fun _ => wmv d f ut i) (d.b i)

/-- `Sw0 = sum(pi[i]**2 * covariance(w[i], wm[i], b[i]))` (line 144). -/
noncomputable def Sw0v : Matrix (Fin 1) (Fin 1) ℝ :=
  ∑ i, (piv d i) ^ 2 •
    covariance (d.n i) (fun (_ : Fin 1) t => wv d f ut i t) (fun _ => wmv d f ut i) (d.b i)

/-- `Ss0 = block([[Sp0, Sp0w0], [Sp0w0.T, Sw0]])` (line 145). -/
noncomputable def Ss0pv : Matrix (Fin (m + 1) ⊕ Fin 1) (Fin (m + 1) ⊕ Fin 1) ℝ :=
  Matrix.fromBlocks (Sp0v d f) (Sp0w0v d f ut) (Sp0w0v d f ut)ᵀ (Sw0v d f ut)

/-- `G = append(iB0 @ pu[:, None], iw0)` with `pu[ref] -= 1` applied
(lines 147-149). -/
noncomputable def Gpv : Fin (m + 1) ⊕ Fin 1 → ℝ :=
  Sum.elim (fun k => Dfup0v d pinv f ut ref k) fun _ => iw0v d f ut

/-- `MICS.__perturb__` (lines 132-154): the free-energy perturbation
`f = log(iw0) - f[ref]` and its standard error
`df = sqrt(multi_dot([G.T, Ss0, G]))`. -/
noncomputable def perturb : ℝ × ℝ :=
  (Real.log (iw0v d f ut) - f ref,
    Real.sqrt (Gpv d pinv f ut ref ⬝ᵥ Ss0pv d f ut *ᵥ Gpv d pinv f ut ref))

/-! ## Basic softmax lemmas -/

theorem sumExpShift_pos (d : MixData m) (f : Fin (m + 1) → ℝ) (i : Fin (m + 1)) (t : ℕ) :
    0 < ∑ k', Real.exp (xv d f i k' t - xmaxv d f i t) :=
  Finset.sum_pos (fun _ _ => Real.exp_pos _) Finset.univ_nonempty

theorem sumExp_pos (d : MixData m) (f : Fin (m + 1) → ℝ) (i : Fin (m + 1)) (t : ℕ) :
    0 < ∑ k', Real.exp (xv d f i k' t) :=
  Finset.sum_pos (fun _ _ => Real.exp_pos _) Finset.univ_nonempty

/-- The log-sum-exp stabilisation cancels exactly: `P` is the plain softmax
of `x`. -/
theorem Pv_eq_softmax (d : MixData m) (f : Fin (m + 1) → ℝ) (i k : Fin (m + 1)) (t : ℕ) :
    Pv d f i k t = Real.exp (xv d f i k t) / ∑ k', Real.exp (xv d f i k' t) := by
  unfold Pv
  have hrw : ∀ k' : Fin (m + 1), Real.exp (xv d f i k' t - xmaxv d f i t) =
      Real.exp (xv d f i k' t) * Real.exp (-xmaxv d f i t) := fun k' => by
    rw [← Real.exp_add]; ring_nf
  simp only [hrw, ← Finset.sum_mul]
  rw [mul_div_mul_right _ _ (ne_of_gt (Real.exp_pos _))]

/-- The exponential of the stored log-normaliser is the reciprocal of the
unstabilised partition sum. -/
theorem exp_u0v (d : MixData m) (f : Fin (m + 1) → ℝ) (i : Fin (m + 1)) (t : ℕ) :
    Real.exp (u0v d f i t) = (∑ k', Real.exp (xv d f i k' t))⁻¹ := by
  unfold u0v
  rw [Real.exp_neg, Real.exp_add, Real.exp_log (sumExpShift_pos d f i t)]
  congr 1
  have hrw : ∀ k' : Fin (m + 1), Real.exp (xv d f i k' t - xmaxv d f i t) =
      Real.exp (xv d f i k' t) * Real.exp (-xmaxv d f i t) := fun k' => by
    rw [← Real.exp_add]; ring_nf
  simp only [hrw, ← Finset.sum_mul]
  rw [show Real.exp (xmaxv d f i t) * ((∑ k', Real.exp (xv d f i k' t)) * Real.exp (-xmaxv d f i t)) =
      Real.exp (xmaxv d f i t) * Real.exp (-xmaxv d f i t) * ∑ k', Real.exp (xv d f i k' t) from by
    ring]
  rw [← Real.exp_add]
  simp

/-! ## Claim theorems: invariants and direct functional correctness -/

/-- Claim C9: after every Newton-Raphson iteration (for every current `f`),
each posterior matrix `P i` has all columns summing to `1` and all entries
non-negative (each column is a softmax over the states). -/
theorem claim_c9 (d : MixData m) (f : Fin (m + 1) → ℝ) (i : Fin (m + 1)) (t : ℕ) :
    (∑ k, Pv d f i k t) = 1 ∧ ∀ k, 0 ≤ Pv d f i k t := by
  constructor
  · unfold Pv
    rw [← Finset.sum_div, div_self (ne_of_gt (sumExpShift_pos d f i t))]
  · intro k
    exact div_nonneg (Real.exp_pos _).le (sumExpShift_pos d f i t).le

/-- Claim C2: `free_energies(r)` returns per-state free energies `f - f[r]`
and standard errors `sqrt(diag(Theta) - 2 * Theta[:, r] + Theta[r, r])`, and
the entry for the reference state `r` itself is exactly `0` with standard
error exactly `0`. -/
theorem claim_c2 (d : MixData m)
    (pinv : Matrix (Fin (m + 1)) (Fin (m + 1)) ℝ → Matrix (Fin (m + 1)) (Fin (m + 1)) ℝ)
    (f : Fin (m + 1) → ℝ) (r : Fin (m + 1)) :
    (∀ k, (free_energies (m + 1) f (Thetav d pinv f) r).1 k = f k - f r ∧
      (free_energies (m + 1) f (Thetav d pinv f) r).2 k =
        Real.sqrt (Thetav d pinv f k k - 2 * Thetav d pinv f k r + Thetav d pinv f r r)) ∧
    (free_energies (m + 1) f (Thetav d pinv f) r).1 r = 0 ∧
    (free_energies (m + 1) f (Thetav d pinv f) r).2 r = 0 := by
  refine ⟨fun k => ⟨rfl, rfl⟩, sub_self _, ?_⟩
  show Real.sqrt (Thetav d pinv f r r - 2 * Thetav d pinv f r r + Thetav d pinv f r r) = 0
  have h : Thetav d pinv f r r - 2 * Thetav d pinv f r r + Thetav d pinv f r r = 0 := by ring
  rw [h, Real.sqrt_zero]

/-- Claim C4: in every Newton-Raphson iteration the full step is
`df_full = iB0 @ (pi - p0)`, the returned correction is
`df_full[1:] - df_full[0]`, and the loop update modifies only entries
`1..m` of `f`, leaving entry `0` untouched. -/
theorem claim_c4 (d : MixData m)
    (pinv : Matrix (Fin (m + 1)) (Fin (m + 1)) ℝ → Matrix (Fin (m + 1)) (Fin (m + 1)) ℝ)
    (f : Fin (m + 1) → ℝ) :
    (∀ j : Fin m, dfv d pinv f j =
      (iB0v d pinv f *ᵥ fun k => piv d k - p0v d f k) j.succ -
      (iB0v d pinv f *ᵥ fun k => piv d k - p0v d f k) 0) ∧
    ∀ dfc : Fin m → ℝ, updF f dfc 0 = f 0 ∧ ∀ j : Fin m, updF f dfc j.succ = f j.succ + dfc j := by
  refine ⟨fun j => rfl, fun dfc => ⟨?_, fun j => ?_⟩⟩
  · show (Fin.cases (f 0) (fun j => f j.succ + dfc j) (0 : Fin (m + 1)) : ℝ) = f 0
    simp
  · show (Fin.cases (f 0) (fun j => f j.succ + dfc j) j.succ : ℝ) = f j.succ + dfc j
    simp

/-- Claim C7: mixture construction fails with a configuration error when the
sample list is empty or when some sample's property set differs from the
first sample's, and otherwise proceeds. -/
theorem claim_c7 (samples : List PySample) :
    (samples = [] → mixtureInit samples = .error (.inputError msgEmptyList)) ∧
    ∀ s0 rest, samples = s0 :: rest →
      ((∃ s ∈ samples, s.columns ≠ s0.columns) →
        mixtureInit samples = .error (.inputError msgDistinct)) ∧
      ((∀ s ∈ samples, s.columns = s0.columns) → mixtureInit samples = .ok s0.columns) := by
  refine ⟨fun h => by subst h; rfl, fun s0 rest h => ?_⟩
  subst h
  constructor
  · intro ⟨s, hs, hne⟩
    have hany : (s0 :: rest).any (fun s => s.columns != s0.columns) = true := by
      rw [List.any_eq_true]
      exact ⟨s, hs, bne_iff_ne.mpr hne⟩
    simp only [mixtureInit, hany, if_true]
  · intro hall
    have hany : (s0 :: rest).any (fun s => s.columns != s0.columns) = false := by
      rw [List.any_eq_false]
      intro s hs
      simp [hall s hs]
    simp only [mixtureInit, hany, Bool.false_eq_true, if_false]

/-- Claim C8 (code bug): a reweighting call whose properties contain the
reserved name `"f"` does fail immediately, but with a `TypeError` raised
while percent-formatting the message (the template contains `"% i"` instead
of `"%s"`), not with the intended configuration error carrying a descriptive
message. -/
theorem claim_c8 :
    reweightingCheck [freeEnergyName] = .error (.typeError msgNeedNumber) ∧
    ∀ msg, reweightingCheck [freeEnergyName] ≠ .error (.inputError msg) := by
  constructor
  · rfl
  · intro msg h
    rw [show reweightingCheck [freeEnergyName] = .error (.typeError msgNeedNumber) from rfl] at h
    exact absurd (Except.error.inj h) (fun hh => PyError.noConfusion hh)

/-! ## The Moore-Penrose pseudo-inverse is unique, and symmetric for
symmetric matrices -/

theorem isMoorePenrose_unique {ι : Type*} [Fintype ι] [DecidableEq ι]
    {A X Y : Matrix ι ι ℝ} (hX : IsMoorePenrose A X) (hY : IsMoorePenrose A Y) :
    X = Y := by
  obtain ⟨hX1, hX2, hX3, hX4⟩ := hX
  obtain ⟨hY1, hY2, hY3, hY4⟩ := hY
  have hAtX : Aᵀ = Aᵀ * Xᵀ * Aᵀ := by
    conv_lhs => rw [← hX1]
    simp [Matrix.transpose_mul, Matrix.mul_assoc]
  have hax : A * X = A * Y := by
    calc A * X = A * Y * A * X := by rw [hY1]
      _ = (A * Y) * (A * X) := by rw [Matrix.mul_assoc]
      _ = (A * Y)ᵀ * (A * X)ᵀ := by rw [hY3, hX3]
      _ = Yᵀ * (Aᵀ * Xᵀ * Aᵀ) := by simp [Matrix.transpose_mul, Matrix.mul_assoc]
      _ = Yᵀ * Aᵀ := by rw [← hAtX]
      _ = (A * Y)ᵀ := by rw [Matrix.transpose_mul]
      _ = A * Y := hY3
  have hxa : X * A = Y * A := by
    calc X * A = X * (A * Y * A) := by rw [hY1]
      _ = (X * A) * (Y * A) := by simp [Matrix.mul_assoc]
      _ = (X * A)ᵀ * (Y * A)ᵀ := by rw [hX4, hY4]
      _ = (Aᵀ * Xᵀ * Aᵀ) * Yᵀ := by simp [Matrix.transpose_mul, Matrix.mul_assoc]
      _ = Aᵀ * Yᵀ := by rw [← hAtX]
      _ = (Y * A)ᵀ := by rw [Matrix.transpose_mul]
      _ = Y * A := hY4
  calc X = X * A * X := hX2.symm
    _ = X * (A * X) := by rw [Matrix.mul_assoc]
    _ = X * (A * Y) := by rw [hax]
    _ = (X * A) * Y := by rw [Matrix.mul_assoc]
    _ = (Y * A) * Y := by rw [hxa]
    _ = Y := hY2

theorem isMoorePenrose_symm {ι : Type*} [Fintype ι] [DecidableEq ι]
    {A X : Matrix ι ι ℝ} (hA : Aᵀ = A) (hX : IsMoorePenrose A X) : Xᵀ = X := by
  obtain ⟨hX1, hX2, hX3, hX4⟩ := hX
  have hXt : IsMoorePenrose A Xᵀ := by
    refine ⟨?_, ?_, ?_, ?_⟩
    · have := congrArg Matrix.transpose hX1
      simpa [Matrix.transpose_mul, hA, Matrix.mul_assoc] using this
    · have := congrArg Matrix.transpose hX2
      simpa [Matrix.transpose_mul, hA, Matrix.mul_assoc] using this
    · calc (A * Xᵀ)ᵀ = X * Aᵀ := by rw [Matrix.transpose_mul, Matrix.transpose_transpose]
        _ = X * A := by rw [hA]
        _ = (X * A)ᵀ := hX4.symm
        _ = Aᵀ * Xᵀ := by rw [Matrix.transpose_mul]
        _ = A * Xᵀ := by rw [hA]
    · calc (Xᵀ * A)ᵀ = Aᵀ * X := by rw [Matrix.transpose_mul, Matrix.transpose_transpose]
        _ = A * X := by rw [hA]
        _ = (A * X)ᵀ := hX3.symm
        _ = Xᵀ * Aᵀ := by rw [Matrix.transpose_mul]
        _ = Xᵀ * A := by rw [hA]
  exact isMoorePenrose_unique hXt ⟨hX1, hX2, hX3, hX4⟩

/-- The base covariance matrix is symmetric. -/
theorem B0v_symm (d : MixData m) (f : Fin (m + 1) → ℝ) : (B0v d f)ᵀ = B0v d f := by
  unfold B0v
  rw [Matrix.transpose_sub, Matrix.diagonal_transpose, Matrix.transpose_sum]
  congr 1
  refine Finset.sum_congr rfl fun i _ => ?_
  rw [Matrix.transpose_smul]
  congr 1
  ext k k'
  simp only [Matrix.transpose_apply, Matrix.of_apply]
  congr 1
  exact Finset.sum_congr rfl fun t _ => mul_comm _ _

/-- Claim C5: on convergence the solver computes
`Sp0 = sum(pi[i]**2 * covariance(P[i], pm[i], b[i]))` and the free-energy
covariance `Theta = iB0 * Sp0 * iB0ᵀ` (the code multiplies by `iB0` on the
right, which coincides with `iB0ᵀ` because the pseudo-inverse of the
symmetric `B0` is symmetric). -/
theorem claim_c5 (d : MixData m)
    (pinv : Matrix (Fin (m + 1)) (Fin (m + 1)) ℝ → Matrix (Fin (m + 1)) (Fin (m + 1)) ℝ)
    (f : Fin (m + 1) → ℝ) (hMP : IsMoorePenrose (B0v d f) (iB0v d pinv f)) :
    Sp0v d f = (∑ i, (piv d i) ^ 2 • covariance (d.n i) (Pv d f i) (pmv d f i) (d.b i)) ∧
    Thetav d pinv f = iB0v d pinv f * Sp0v d f * (iB0v d pinv f)ᵀ := by
  have hsym := isMoorePenrose_symm (B0v_symm d f) hMP
  exact ⟨rfl, by rw [Thetav, hsym]⟩

/-! ## Claims C3 and C10: the solver loop -/

open scoped Classical in
/-- Claim C3: the Newton-Raphson loop iterates exactly until
`max(|df|) <= tol` with the default tolerance `1e-12` and no
maximum-iteration cap: on an input whose corrections never fall below the
tolerance, no amount of fuel makes the solver return. -/
theorem claim_c3 (d : MixData m)
    (pinv : Matrix (Fin (m + 1)) (Fin (m + 1)) ℝ → Matrix (Fin (m + 1)) (Fin (m + 1)) ℝ)
    (f0 : Fin (m + 1) → ℝ)
    (h : ∀ k, bigDf m defaultTol (dfv d pinv (seqF (dfv d pinv) updF f0 k))) :
    ∀ fuel, micsSolve d pinv defaultTol f0 fuel = none := by
  intro fuel
  simp only [micsSolve]
  exact solveLoop_none _ _ _ f0 h fuel

open scoped Classical in
/-- Claim C10: the correction is computed before the convergence test and
the correction that satisfies the tolerance is never applied: when the first
`k` corrections fail the test and the `k`-th passes it, the solver returns
exactly the state after `k` applied updates.  In particular for `k = 0` the
returned vector is the untouched initial guess. -/
theorem claim_c10 (d : MixData m)
    (pinv : Matrix (Fin (m + 1)) (Fin (m + 1)) ℝ → Matrix (Fin (m + 1)) (Fin (m + 1)) ℝ)
    (f0 : Fin (m + 1) → ℝ) (tol : ℝ) (k : ℕ)
    (hrun : ∀ i < k, bigDf m tol (dfv d pinv (seqF (dfv d pinv) updF f0 i)))
    (hstop : ¬ bigDf m tol (dfv d pinv (seqF (dfv d pinv) updF f0 k))) :
    ∀ fuel, k < fuel → micsSolve d pinv tol f0 fuel = some (seqF (dfv d pinv) updF f0 k) := by
  intro fuel hf
  simp only [micsSolve]
  exact solveLoop_some _ _ _ f0 k hrun hstop fuel hf

/-! ## A concrete two-state mixture

Two samples of one configuration each, all reduced potentials zero, equal
effective sample sizes, and a collaborator-supplied pseudo-inverse that is
deliberately constant.  Used to exercise the loop theorems. -/

/-- Two samples, one configuration each, zero potentials. -/
noncomputable def dPair : MixData 1 :=
  ⟨fun _ => 1, fun _ => 1, fun _ _ _ => 0, fun _ => 1⟩

/-- A constant matrix-valued collaborator standing in for `pinv`. -/
noncomputable def pinvPair : Matrix (Fin 2) (Fin 2) ℝ → Matrix (Fin 2) (Fin 2) ℝ :=
  fun _ => Matrix.of ![![0, 0], ![1, -1]]

/-- The initial guess `(0, 1)`. -/
noncomputable def fStart : Fin 2 → ℝ := ![0, 1]

theorem piv_dPair (k : Fin 2) : piv dPair k = 1 / 2 := by
  simp only [piv, dPair, Fin.sum_univ_two]
  norm_num

theorem Pv_dPair (fc : Fin 2 → ℝ) (i k : Fin 2) (t : ℕ) :
    Pv dPair fc i k t = Real.exp (fc k) / (Real.exp (fc 0) + Real.exp (fc 1)) := by
  rw [Pv_eq_softmax]
  have hx : ∀ k' : Fin 2, xv dPair fc i k' t = fc k' + Real.log (1 / 2) := by
    intro k'
    have hu : dPair.u i k' t = 0 := rfl
    rw [xv, hu, piv_dPair, sub_zero]
  rw [hx k, Fin.sum_univ_two, hx 0, hx 1, Real.exp_add, Real.exp_add, Real.exp_add,
    Real.exp_log (by norm_num : (0 : ℝ) < 1 / 2)]
  rw [show Real.exp (fc 0) * (1 / 2) + Real.exp (fc 1) * (1 / 2) =
      (Real.exp (fc 0) + Real.exp (fc 1)) * (1 / 2) from by ring]
  rw [mul_div_mul_right _ _ (by norm_num : (1 / 2 : ℝ) ≠ 0)]

theorem p0v_dPair (fc : Fin 2 → ℝ) (k : Fin 2) :
    p0v dPair fc k = Real.exp (fc k) / (Real.exp (fc 0) + Real.exp (fc 1)) := by
  have hpm : ∀ i, pmv dPair fc i k = Real.exp (fc k) / (Real.exp (fc 0) + Real.exp (fc 1)) := by
    intro i
    have hn : dPair.n i = 1 := rfl
    rw [pmv, hn, mean, Finset.sum_range_one, Pv_dPair]
    norm_num
  have h2 : ∀ i : Fin (1 + 1), piv dPair i * pmv dPair fc i k =
      1 / 2 * (Real.exp (fc k) / (Real.exp (fc 0) + Real.exp (fc 1))) := fun i => by
    rw [piv_dPair, hpm]
  rw [p0v, Finset.sum_congr rfl fun i _ => h2 i, Finset.sum_const, Finset.card_univ,
    Fintype.card_fin, nsmul_eq_mul]
  push_cast
  ring

theorem dfv_dPair (fc : Fin 2 → ℝ) (j : Fin 1) :
    dfv dPair pinvPair fc j =
      (Real.exp (fc 1) - Real.exp (fc 0)) / (Real.exp (fc 0) + Real.exp (fc 1)) := by
  have hfull : ∀ k : Fin 2, dfFullv dPair pinvPair fc k =
      Matrix.of ![![0, 0], ![(1 : ℝ), -1]] k 0 * (piv dPair 0 - p0v dPair fc 0) +
      Matrix.of ![![0, 0], ![(1 : ℝ), -1]] k 1 * (piv dPair 1 - p0v dPair fc 1) := by
    intro k
    simp [dfFullv, iB0v, pinvPair, Matrix.mulVec, Matrix.dotProduct, Fin.sum_univ_two]
  have hj : j = 0 := Subsingleton.elim _ _
  subst hj
  show dfFullv dPair pinvPair fc (Fin.succ 0) - dfFullv dPair pinvPair fc 0 = _
  rw [hfull, hfull]
  have h1 : (Fin.succ 0 : Fin 2) = 1 := rfl
  rw [h1]
  simp only [Matrix.of_apply, Matrix.cons_val_zero, Matrix.cons_val_one, Matrix.head_cons]
  rw [p0v_dPair, p0v_dPair, piv_dPair, piv_dPair]
  ring

theorem dfv_dPair_lower (fc : Fin 2 → ℝ) (h0 : fc 0 = 0) (h1 : 1 ≤ fc 1) :
    1 / 3 ≤ dfv dPair pinvPair fc 0 := by
  rw [dfv_dPair, h0, Real.exp_zero]
  set t := Real.exp (fc 1) with ht
  have h2 : 2 ≤ t := by
    have := Real.add_one_le_exp (1 : ℝ)
    have hmono := Real.exp_le_exp.mpr h1
    linarith
  rw [le_div_iff₀ (by linarith : (0 : ℝ) < 1 + t)]
  linarith

theorem seqF_dPair_inv (k : ℕ) :
    seqF (dfv dPair pinvPair) updF fStart k 0 = 0 ∧
    1 ≤ seqF (dfv dPair pinvPair) updF fStart k 1 := by
  induction k with
  | zero =>
      constructor
      · show fStart 0 = 0
        simp [fStart]
      · show 1 ≤ fStart 1
        simp [fStart]
  | succ k ih =>
      obtain ⟨ih0, ih1⟩ := ih
      set fc := seqF (dfv dPair pinvPair) updF fStart k with hfc
      have hdf := dfv_dPair_lower fc ih0 ih1
      constructor
      · show updF fc (dfv dPair pinvPair fc) 0 = 0
        simpa [updF] using ih0
      · show 1 ≤ updF fc (dfv dPair pinvPair fc) 1
        have hupd : updF fc (dfv dPair pinvPair fc) 1 = fc 1 + dfv dPair pinvPair fc 0 := by
          show (Fin.cases (fc 0) (fun j => fc j.succ + dfv dPair pinvPair fc j)
            ((0 : Fin 1).succ) : ℝ) = _
          exact Fin.cases_succ _
        rw [hupd]
        linarith

theorem dPair_never_converges (k : ℕ) :
    bigDf 1 defaultTol (dfv dPair pinvPair (seqF (dfv dPair pinvPair) updF fStart k)) := by
  obtain ⟨h0, h1⟩ := seqF_dPair_inv k
  refine ⟨0, ?_⟩
  have hdf := dfv_dPair_lower _ h0 h1
  rw [abs_of_nonneg (by linarith)]
  rw [defaultTol]
  norm_num
  linarith

/-- Witness for claim C3: on the concrete two-state mixture with the
constant collaborator pseudo-inverse and initial guess `(0, 1)`, the
corrections stay above the default tolerance forever, and the solver does
not return within 1000 iterations. -/
theorem claim_c3_witness : micsSolve dPair pinvPair defaultTol fStart 1000 = none :=
  claim_c3 dPair pinvPair fStart dPair_never_converges 1000

/-- Witness for claim C10: on the concrete two-state mixture with initial
guess `(0, 0)`, the very first correction is `0 <= tol`, and the solver
returns the untouched initial guess. -/
theorem claim_c10_witness :
    micsSolve dPair pinvPair defaultTol (fun _ => 0) 1 = some (fun _ => (0 : ℝ)) := by
  have hstop : ¬ bigDf 1 defaultTol
      (dfv dPair pinvPair (seqF (dfv dPair pinvPair) updF (fun _ => 0) 0)) := by
    rintro ⟨j, hj⟩
    have h0 : seqF (dfv dPair pinvPair) updF (fun _ => (0 : ℝ)) 0 = fun _ => 0 := rfl
    rw [h0, dfv_dPair] at hj
    simp only [sub_self, zero_div, abs_zero] at hj
    rw [defaultTol] at hj
    norm_num at hj
  exact claim_c10 dPair pinvPair (fun _ => 0) defaultTol 0
    (fun i hi => absurd hi (Nat.not_lt_zero i)) hstop 1 Nat.one_pos

/-- A sample recording property list `["a"]`. -/
def sampA : PySample := ⟨["a"]⟩

/-- A sample recording property list `["b"]`. -/
def sampB : PySample := ⟨["b"]⟩

/-- Witness for claim C7: the empty list fails, a schema mismatch fails,
and matching schemas proceed. -/
theorem claim_c7_witness :
    mixtureInit [] = .error (.inputError msgEmptyList) ∧
    mixtureInit [sampA, sampB] = .error (.inputError msgDistinct) ∧
    mixtureInit [sampA, sampA] = .ok sampA.columns := by
  refine ⟨(claim_c7 []).1 rfl, ?_, ?_⟩
  · exact ((claim_c7 [sampA, sampB]).2 sampA [sampB] rfl).1
      ⟨sampB, by decide, by decide⟩
  · exact ((claim_c7 [sampA, sampA]).2 sampA [sampA] rfl).2 (by decide)

/-! ## A degenerate one-state mixture

A single sample with one configuration and zero potential: the solver state
is fully explicit (`P = pm = p0 = pi = 1`, `B0 = 0`), the zero matrix is a
genuine Moore-Penrose pseudo-inverse of `B0`, and the self-consistency
equations hold exactly.  Used to exercise the covariance and reweighting
theorems. -/

/-- One sample, one configuration, zero potential. -/
noncomputable def dUnit : MixData 0 :=
  ⟨fun _ => 1, fun _ => 1, fun _ _ _ => 0, fun _ => 1⟩

/-- The zero collaborator standing in for `pinv` (correct on `B0 = 0`). -/
noncomputable def pinvZero : Matrix (Fin 1) (Fin 1) ℝ → Matrix (Fin 1) (Fin 1) ℝ :=
  fun _ => 0

/-- The zero free-energy vector. -/
noncomputable def fUnit : Fin 1 → ℝ := fun _ => 0

theorem piv_dUnit (k : Fin 1) : piv dUnit k = 1 := by
  have h : (∑ j : Fin 1, dUnit.neff j) = 1 := by
    rw [Fin.sum_univ_one]
    rfl
  have hk : dUnit.neff k = 1 := rfl
  rw [piv, h, hk]
  norm_num

theorem Pv_dUnit (i k : Fin 1) (t : ℕ) : Pv dUnit fUnit i k t = 1 := by
  rw [Pv_eq_softmax]
  have hx : ∀ k' : Fin 1, xv dUnit fUnit i k' t = 0 := by
    intro k'
    have hu : dUnit.u i k' t = 0 := rfl
    have hf : fUnit k' = 0 := rfl
    rw [xv, hu, hf, piv_dUnit, Real.log_one]
    ring
  rw [hx k]
  have hsum : (∑ k' : Fin (0 + 1), Real.exp (xv dUnit fUnit i k' t)) = 1 := by
    rw [Fin.sum_univ_one, hx 0, Real.exp_zero]
  rw [hsum, Real.exp_zero, div_one]

theorem pmv_dUnit (i k : Fin 1) : pmv dUnit fUnit i k = 1 := by
  have hn : dUnit.n i = 1 := rfl
  rw [pmv, hn, mean, Finset.sum_range_one, Pv_dUnit]
  norm_num

theorem p0v_dUnit : p0v dUnit fUnit = piv dUnit := by
  funext k
  rw [p0v, Fin.sum_univ_one, piv_dUnit, pmv_dUnit, piv_dUnit, mul_one]

theorem B0v_dUnit : B0v dUnit fUnit = 0 := by
  ext k k'
  have hk : k = 0 := Fin.ext (Nat.lt_one_iff.mp k.isLt)
  have hk' : k' = 0 := Fin.ext (Nat.lt_one_iff.mp k'.isLt)
  subst hk hk'
  rw [B0v]
  simp only [Matrix.sub_apply, Matrix.diagonal_apply_eq, Matrix.sum_apply,
    Matrix.smul_apply, Matrix.of_apply, Matrix.zero_apply]
  rw [p0v_dUnit]
  have hn : ∀ x : Fin 1, dUnit.n x = 1 := fun _ => rfl
  simp [piv_dUnit, Pv_dUnit, hn]

theorem iB0v_dUnit : iB0v dUnit pinvZero fUnit = 0 := rfl

theorem dUnit_moorePenrose : IsMoorePenrose (B0v dUnit fUnit) (iB0v dUnit pinvZero fUnit) := by
  rw [B0v_dUnit, iB0v_dUnit]
  exact ⟨by simp, by simp, by simp, by simp⟩

/-! ## Claim C6: the perturbation engine is the free-energy component of the
reweighting engine -/

/-- Entry of a conjugated matrix as a quadratic form in the columns. -/
theorem conj_entry {ι κ : Type*} [Fintype ι] [Fintype κ]
    (M : Matrix ι ι ℝ) (G : Matrix ι κ ℝ) (a b : κ) :
    (Gᵀ * M * G) a b = (fun e => G e a) ⬝ᵥ M *ᵥ fun e => G e b := by
  simp only [Matrix.mul_apply, Matrix.transpose_apply, Matrix.dotProduct, Matrix.mulVec,
    Finset.sum_mul, Finset.mul_sum]
  rw [Finset.sum_comm]
  exact Finset.sum_congr rfl fun e _ => Finset.sum_congr rfl fun c _ => by ring

/-- Quadratic form of a block matrix at a block-decomposed vector. -/
theorem elim_dot_fromBlocks {α β : Type*} [Fintype α] [Fintype β]
    (A : Matrix α α ℝ) (B : Matrix α β ℝ) (C : Matrix β α ℝ) (Dm : Matrix β β ℝ)
    (v : α → ℝ) (w : β → ℝ) :
    Sum.elim v w ⬝ᵥ Matrix.fromBlocks A B C Dm *ᵥ Sum.elim v w =
      v ⬝ᵥ A *ᵥ v + v ⬝ᵥ B *ᵥ w + (w ⬝ᵥ C *ᵥ v + w ⬝ᵥ Dm *ᵥ w) := by
  rw [Matrix.fromBlocks_mulVec]
  simp only [Sum.elim_comp_inl, Sum.elim_comp_inr]
  rw [Matrix.sum_elim_dotProduct_sum_elim, Matrix.dotProduct_add, Matrix.dotProduct_add]

/-- The free-energy column of the reweighting Jacobian `G`. -/
theorem Gv_col (c : Fin (m + 1) ⊕ (Fin q ⊕ Fin 1)) :
    Gv d pinv f ut y ref c (Sum.inl 0) =
      Sum.elim (Dfup0v d pinv f ut ref)
        (Sum.elim (fun _ => (0 : ℝ)) fun _ => iw0v d f ut) c := by
  rcases c with k | jz | s <;> rfl

/-- The `w`-column of `Sp0r0` is the perturbation engine's `Sp0w0`. -/
theorem Sp0r0v_inr (k : Fin (m + 1)) (s : Fin 1) :
    Sp0r0v d f ut y k (Sum.inr s) = Sp0w0v d f ut k s := by
  rw [Sp0r0v, Sp0w0v, Matrix.sum_apply, Matrix.sum_apply]
  refine Finset.sum_congr rfl fun i _ => ?_
  simp only [Matrix.smul_apply]
  rfl

/-- The `w`-corner of `Sr0` is the perturbation engine's `Sw0`. -/
theorem Sr0v_inr (s s' : Fin 1) :
    Sr0v d f ut y (Sum.inr s) (Sum.inr s') = Sw0v d f ut s s' := by
  rw [Sr0v, Sw0v, Matrix.sum_apply, Matrix.sum_apply]
  refine Finset.sum_congr rfl fun i _ => ?_
  simp only [Matrix.smul_apply]
  rfl

/-- The `(f, f)` entry of the reweighting covariance equals the quadratic
form computed by the perturbation engine, for any property set. -/
theorem thetaT_entry00 :
    ThetaTv d pinv f ut y ref (Sum.inl 0) (Sum.inl 0) =
      Gpv d pinv f ut ref ⬝ᵥ Ss0pv d f ut *ᵥ Gpv d pinv f ut ref := by
  rw [ThetaTv, conj_entry]
  have hcol : (fun e => Gv d pinv f ut y ref e (Sum.inl 0)) =
      Sum.elim (Dfup0v d pinv f ut ref)
        (Sum.elim (fun _ => (0 : ℝ)) fun _ => iw0v d f ut) := by
    funext c
    exact Gv_col d pinv f ut y ref c
  rw [hcol, Ss0v, elim_dot_fromBlocks, Gpv, Ss0pv, elim_dot_fromBlocks]
  have h2 : Sp0r0v d f ut y *ᵥ Sum.elim (fun _ => (0 : ℝ)) (fun _ => iw0v d f ut) =
      Sp0w0v d f ut *ᵥ fun _ => iw0v d f ut := by
    funext k
    simp only [Matrix.mulVec, Matrix.dotProduct, Fintype.sum_sum_type, Sum.elim_inl,
      Sum.elim_inr, mul_zero, Finset.sum_const_zero, zero_add, Fin.sum_univ_one]
    rw [Sp0r0v_inr]
  have h3 : Sum.elim (fun _ => (0 : ℝ)) (fun _ => iw0v d f ut) ⬝ᵥ
        (Sp0r0v d f ut y)ᵀ *ᵥ Dfup0v d pinv f ut ref =
      (fun _ => iw0v d f ut) ⬝ᵥ (Sp0w0v d f ut)ᵀ *ᵥ Dfup0v d pinv f ut ref := by
    simp only [Matrix.dotProduct, Fintype.sum_sum_type, Sum.elim_inl, Sum.elim_inr,
      zero_mul, Finset.sum_const_zero, zero_add, Fin.sum_univ_one]
    congr 1
    simp only [Matrix.mulVec, Matrix.dotProduct, Matrix.transpose_apply]
    exact Finset.sum_congr rfl fun k _ => by rw [Sp0r0v_inr]
  have h4 : Sum.elim (fun _ => (0 : ℝ)) (fun _ => iw0v d f ut) ⬝ᵥ
        Sr0v d f ut y *ᵥ Sum.elim (fun _ => (0 : ℝ)) (fun _ => iw0v d f ut) =
      (fun _ => iw0v d f ut) ⬝ᵥ Sw0v d f ut *ᵥ fun _ => iw0v d f ut := by
    simp only [Matrix.dotProduct, Matrix.mulVec, Fintype.sum_sum_type, Sum.elim_inl,
      Sum.elim_inr, zero_mul, mul_zero, Finset.sum_const_zero, zero_add,
      Fin.sum_univ_one]
    rw [Sr0v_inr]
  rw [h2, h3, h4]

/-- Claim C6: for identical inputs (same target potential and reference),
the perturbation engine's free-energy value is the first entry of the
reweighting engine's result vector, and its standard error is the
propagated error of that entry of the reweighting covariance, for every
property set `y`. -/
theorem claim_c6 :
    (perturb d pinv f ut ref).1 = (reweight d pinv f ut y ref).1 (Sum.inl 0) ∧
    (perturb d pinv f ut ref).2 =
      Real.sqrt ((reweight d pinv f ut y ref).2 (Sum.inl 0) (Sum.inl 0)) := by
  refine ⟨rfl, ?_⟩
  show Real.sqrt _ = _
  exact congrArg Real.sqrt (thetaT_entry00 d pinv f ut y ref).symm

/-- Witness for claim C5: the degenerate one-state mixture with `B0 = 0`
and the pseudo-inverse `0`. -/
theorem claim_c5_witness :
    Sp0v dUnit fUnit =
      (∑ i, (piv dUnit i) ^ 2 •
        covariance (dUnit.n i) (Pv dUnit fUnit i) (pmv dUnit fUnit i) (dUnit.b i)) ∧
    Thetav dUnit pinvZero fUnit =
      iB0v dUnit pinvZero fUnit * Sp0v dUnit fUnit * (iB0v dUnit pinvZero fUnit)ᵀ :=
  claim_c5 dUnit pinvZero fUnit dUnit_moorePenrose

/-! ## Claim C1: reweighting at a sampled potential reproduces
`free_energies`

Setting the target potential to state `i`'s own potential row makes the
importance weights proportional to row `i` of the posterior matrices; at the
exact self-consistent fixed point (`p0 = pi`) the reweighted free energy and
its propagated error collapse to the solver's own `f` and `Theta` entries. -/

theorem piv_pos (hneff : ∀ k, 0 < d.neff k) (k : Fin (m + 1)) : 0 < piv d k :=
  div_pos (hneff k) (Finset.sum_pos (fun j _ => hneff j) Finset.univ_nonempty)

theorem mean_const_mul (nn : ℕ) (c : ℝ) (g : ℕ → ℝ) :
    mean nn (fun t => c * g t) = c * mean nn g := by
  rw [mean, mean, ← Finset.mul_sum, mul_div_assoc]

theorem blockMean_const_mul (bb : ℕ) (c : ℝ) (g : ℕ → ℝ) (l : ℕ) :
    blockMean bb (fun t => c * g t) l = c * blockMean bb g l := by
  rw [blockMean, blockMean, ← Finset.mul_sum, mul_div_assoc]

theorem blockDev_const_mul (bb : ℕ) (c : ℝ) (g : ℕ → ℝ) (ym : ℝ) (l : ℕ) :
    blockDev bb (fun t => c * g t) (c * ym) l = c * blockDev bb g ym l := by
  rw [blockDev, blockDev, blockMean_const_mul]
  ring

/-- With the target potential equal to state `i`'s own potential, the
importance weights are a fixed multiple of row `i` of the posteriors. -/
theorem wv_target (hneff : ∀ k, 0 < d.neff k) (i j : Fin (m + 1)) (t : ℕ) :
    wv d f (fun j' t' => d.u j' i t') j t =
      (Real.exp (f i) * piv d i)⁻¹ * Pv d f j i t := by
  have hpiv := piv_pos d hneff i
  have hx : Real.exp (xv d f j i t) =
      Real.exp (f i) * piv d i * (Real.exp (d.u j i t))⁻¹ := by
    rw [xv, show f i + Real.log (piv d i) - d.u j i t =
      f i + Real.log (piv d i) + -(d.u j i t) from by ring,
      Real.exp_add, Real.exp_add, Real.exp_log hpiv, Real.exp_neg]
  rw [wv, Real.exp_sub, exp_u0v, Pv_eq_softmax, hx]
  have hs : (∑ k', Real.exp (xv d f j k' t)) ≠ 0 := (sumExp_pos d f j t).ne'
  have he : Real.exp (d.u j i t) ≠ 0 := (Real.exp_pos _).ne'
  have hef : Real.exp (f i) ≠ 0 := (Real.exp_pos _).ne'
  have hp : piv d i ≠ 0 := hpiv.ne'
  field_simp
  ring

/-- The weight means at the target potential. -/
theorem wmv_target (hneff : ∀ k, 0 < d.neff k) (i j : Fin (m + 1)) :
    wmv d f (fun j' t' => d.u j' i t') j =
      (Real.exp (f i) * piv d i)⁻¹ * pmv d f j i := by
  have hw : wv d f (fun j' t' => d.u j' i t') j =
      fun t => (Real.exp (f i) * piv d i)⁻¹ * Pv d f j i t :=
    funext fun t => wv_target d f hneff i j t
  rw [wmv, hw, mean_const_mul]
  rfl

/-- At the self-consistent fixed point, the reweighting normaliser at the
target potential is `exp(f i)`. -/
theorem iw0_target (hneff : ∀ k, 0 < d.neff k) (hconv : p0v d f = piv d) (i : Fin (m + 1)) :
    iw0v d f (fun j' t' => d.u j' i t') = Real.exp (f i) := by
  have hpiv := piv_pos d hneff i
  rw [iw0v]
  have hsum : (∑ j, piv d j * mean (d.n j) (wv d f (fun j' t' => d.u j' i t') j)) =
      (Real.exp (f i) * piv d i)⁻¹ * p0v d f i := by
    rw [p0v, Finset.mul_sum]
    refine Finset.sum_congr rfl fun j _ => ?_
    have hw : wv d f (fun j' t' => d.u j' i t') j =
        fun t => (Real.exp (f i) * piv d i)⁻¹ * Pv d f j i t :=
      funext fun t => wv_target d f hneff i j t
    rw [hw, mean_const_mul]
    show piv d j * ((Real.exp (f i) * piv d i)⁻¹ * pmv d f j i) = _
    ring
  rw [hsum, hconv]
  have h2 : (Real.exp (f i) * piv d i)⁻¹ * piv d i = (Real.exp (f i))⁻¹ := by
    field_simp
    ring
  rw [h2, one_div, inv_inv]

/-- At the fixed point, the reweighted posterior `pu` is the `i`-th basis
vector shifted by the `i`-th column of `B0`. -/
theorem puv_target (hneff : ∀ k, 0 < d.neff k) (hconv : p0v d f = piv d)
    (i k : Fin (m + 1)) :
    puv d f (fun j' t' => d.u j' i t') k =
      (if k = i then 1 else 0) - (piv d i)⁻¹ * B0v d f k i := by
  have hpiv := piv_pos d hneff i
  have hef : Real.exp (f i) ≠ 0 := (Real.exp_pos _).ne'
  have hBdecomp : (∑ j, piv d j * ((∑ t in range (d.n j), Pv d f j i t * Pv d f j k t) / d.n j)) =
      (if k = i then p0v d f k else 0) - B0v d f k i := by
    rw [B0v]
    simp only [Matrix.sub_apply, Matrix.sum_apply, Matrix.smul_apply, Matrix.of_apply,
      Matrix.diagonal_apply, smul_eq_mul]
    rw [sub_sub_cancel]
    refine Finset.sum_congr rfl fun j _ => ?_
    congr 1
    congr 1
    exact Finset.sum_congr rfl fun t _ => mul_comm _ _
  rw [puv, iw0_target d f hneff hconv i]
  have hsum : (∑ j, piv d j *
      mean (d.n j) fun t => wv d f (fun j' t' => d.u j' i t') j t * Pv d f j k t) =
      (Real.exp (f i) * piv d i)⁻¹ *
        ((if k = i then p0v d f k else 0) - B0v d f k i) := by
    rw [← hBdecomp, Finset.mul_sum]
    refine Finset.sum_congr rfl fun j _ => ?_
    have hw : (fun t => wv d f (fun j' t' => d.u j' i t') j t * Pv d f j k t) =
        fun t => (Real.exp (f i) * piv d i)⁻¹ * (Pv d f j i t * Pv d f j k t) := by
      funext t
      rw [wv_target d f hneff i j t]
      ring
    rw [hw, mean_const_mul]
    show piv d j * ((Real.exp (f i) * piv d i)⁻¹ * mean (d.n j) fun t => Pv d f j i t * Pv d f j k t) = _
    rw [mean]
    ring
  rw [hsum, hconv]
  by_cases hk : k = i
  · subst hk
    rw [if_pos rfl, if_pos rfl]
    field_simp
    ring
  · rw [if_neg hk, if_neg hk]
    field_simp
    ring

/-- The cross-covariance block at the target potential is the `i`-th column
of `Sp0`, scaled. -/
theorem Sp0w0_target (hneff : ∀ k, 0 < d.neff k) (i k : Fin (m + 1)) (s : Fin 1) :
    Sp0w0v d f (fun j' t' => d.u j' i t') k s =
      (Real.exp (f i) * piv d i)⁻¹ * Sp0v d f k i := by
  rw [Sp0w0v, Sp0v, Matrix.sum_apply, Matrix.sum_apply, Finset.mul_sum]
  refine Finset.sum_congr rfl fun j _ => ?_
  simp only [Matrix.smul_apply, smul_eq_mul, cross_covariance, covariance, Matrix.of_apply]
  have hdev : ∀ l, blockDev (d.b j) (wv d f (fun j' t' => d.u j' i t') j)
      (wmv d f (fun j' t' => d.u j' i t') j) l =
      (Real.exp (f i) * piv d i)⁻¹ * blockDev (d.b j) (Pv d f j i) (pmv d f j i) l := by
    intro l
    have hw : wv d f (fun j' t' => d.u j' i t') j =
        fun t => (Real.exp (f i) * piv d i)⁻¹ * Pv d f j i t :=
      funext fun t => wv_target d f hneff i j t
    rw [hw, wmv_target d f hneff i j, blockDev_const_mul]
  simp only [hdev]
  rw [show (∑ l in range (d.n j / d.b j),
      blockDev (d.b j) (Pv d f j k) (pmv d f j k) l *
        ((Real.exp (f i) * piv d i)⁻¹ * blockDev (d.b j) (Pv d f j i) (pmv d f j i) l)) =
      (Real.exp (f i) * piv d i)⁻¹ * ∑ l in range (d.n j / d.b j),
        blockDev (d.b j) (Pv d f j k) (pmv d f j k) l *
          blockDev (d.b j) (Pv d f j i) (pmv d f j i) l from by
    rw [Finset.mul_sum]
    exact Finset.sum_congr rfl fun l _ => by ring]
  ring

/-- The weight autocovariance at the target potential is the `(i, i)` entry
of `Sp0`, scaled twice. -/
theorem Sw0_target (hneff : ∀ k, 0 < d.neff k) (i : Fin (m + 1)) (s s' : Fin 1) :
    Sw0v d f (fun j' t' => d.u j' i t') s s' =
      ((Real.exp (f i) * piv d i)⁻¹) ^ 2 * Sp0v d f i i := by
  rw [Sw0v, Sp0v, Matrix.sum_apply, Matrix.sum_apply, Finset.mul_sum]
  refine Finset.sum_congr rfl fun j _ => ?_
  simp only [Matrix.smul_apply, smul_eq_mul, covariance, Matrix.of_apply]
  have hdev : ∀ l, blockDev (d.b j) (wv d f (fun j' t' => d.u j' i t') j)
      (wmv d f (fun j' t' => d.u j' i t') j) l =
      (Real.exp (f i) * piv d i)⁻¹ * blockDev (d.b j) (Pv d f j i) (pmv d f j i) l := by
    intro l
    have hw : wv d f (fun j' t' => d.u j' i t') j =
        fun t => (Real.exp (f i) * piv d i)⁻¹ * Pv d f j i t :=
      funext fun t => wv_target d f hneff i j t
    rw [hw, wmv_target d f hneff i j, blockDev_const_mul]
  simp only [hdev]
  rw [show (∑ l in range (d.n j / d.b j),
      (Real.exp (f i) * piv d i)⁻¹ * blockDev (d.b j) (Pv d f j i) (pmv d f j i) l *
        ((Real.exp (f i) * piv d i)⁻¹ * blockDev (d.b j) (Pv d f j i) (pmv d f j i) l)) =
      ((Real.exp (f i) * piv d i)⁻¹) ^ 2 * ∑ l in range (d.n j / d.b j),
        blockDev (d.b j) (Pv d f j i) (pmv d f j i) l *
          blockDev (d.b j) (Pv d f j i) (pmv d f j i) l from by
    rw [Finset.mul_sum]
    exact Finset.sum_congr rfl fun l _ => by ring]
  ring

/-- `Sp0` is symmetric. -/
theorem Sp0v_symm : (Sp0v d f)ᵀ = Sp0v d f := by
  rw [Sp0v, Matrix.transpose_sum]
  refine Finset.sum_congr rfl fun i _ => ?_
  rw [Matrix.transpose_smul]
  congr 1
  ext k k'
  rw [Matrix.transpose_apply]
  simp only [covariance, Matrix.of_apply]
  congr 1
  exact Finset.sum_congr rfl fun l _ => mul_comm _ _

/-- Columns of the posteriors sum to one (helper form). -/
theorem Pv_sum_one (i : Fin (m + 1)) (t : ℕ) : (∑ k, Pv d f i k t) = 1 := by
  unfold Pv
  rw [← Finset.sum_div, div_self (ne_of_gt (sumExpShift_pos d f i t))]

/-- The mean posteriors sum to one over the states. -/
theorem pmv_sum_one (i : Fin (m + 1)) (hn : d.n i ≠ 0) : (∑ k, pmv d f i k) = 1 := by
  simp only [pmv, mean]
  rw [← Finset.sum_div, Finset.sum_comm]
  rw [Finset.sum_congr rfl fun t _ => Pv_sum_one d f i t]
  rw [Finset.sum_const, Finset.card_range, nsmul_eq_mul, mul_one]
  exact div_self (Nat.cast_ne_zero.mpr hn)

/-- Block deviations of the posteriors sum to zero over the states. -/
theorem blockDev_sum_zero (i : Fin (m + 1)) (hn : d.n i ≠ 0) (hb : d.b i ≠ 0) (l : ℕ) :
    (∑ k, blockDev (d.b i) (Pv d f i k) (pmv d f i k) l) = 0 := by
  simp only [blockDev, blockMean]
  rw [Finset.sum_sub_distrib, pmv_sum_one d f i hn]
  rw [← Finset.sum_div, Finset.sum_comm]
  rw [Finset.sum_congr rfl fun j _ => Pv_sum_one d f i (l * d.b i + j)]
  rw [Finset.sum_const, Finset.card_range, nsmul_eq_mul, mul_one]
  rw [div_self (Nat.cast_ne_zero.mpr hb)]
  exact sub_self 1

/-- Column sums of `Sp0` vanish. -/
theorem Sp0_col_sum (hn : ∀ i, d.n i ≠ 0) (hb : ∀ i, d.b i ≠ 0) (k' : Fin (m + 1)) :
    (∑ k, Sp0v d f k k') = 0 := by
  simp only [Sp0v, Matrix.sum_apply, Matrix.smul_apply, smul_eq_mul]
  rw [Finset.sum_comm]
  refine Finset.sum_eq_zero fun i _ => ?_
  rw [← Finset.mul_sum]
  convert mul_zero ((piv d i) ^ 2)
  simp only [covariance, Matrix.of_apply]
  rw [← Finset.sum_div]
  convert zero_div (((d.n i / d.b i : ℕ) : ℝ) ^ 2)
  rw [Finset.sum_comm]
  refine Finset.sum_eq_zero fun l _ => ?_
  rw [← Finset.sum_mul, blockDev_sum_zero d f i (hn i) (hb i) l, zero_mul]

/-- Reduction of the perturbation quadratic form to the two-point
combination of the free-energy covariance, for a symmetric kernel with
vanishing marginal sums and a pseudo-inverse acting as the centred
projection. -/
theorem quadform_reduce (S T B : Matrix (Fin (m + 1)) (Fin (m + 1)) ℝ)
    (hS : Sᵀ = S) (hT : Tᵀ = T)
    (hcol : ∀ k', (∑ k, S k k') = 0)
    (hproj : T * B = 1 - ((m + 1 : ℝ))⁻¹ • Matrix.of fun _ _ => (1 : ℝ))
    (pii : ℝ) (i ref : Fin (m + 1)) (pu' : Fin (m + 1) → ℝ)
    (hpu : pu' = fun k => ((if k = i then 1 else 0) - pii⁻¹ * B k i) -
      (if k = ref then 1 else 0)) :
    (T *ᵥ pu') ⬝ᵥ S *ᵥ (T *ᵥ pu') +
      2 * pii⁻¹ * ((T *ᵥ pu') ⬝ᵥ S *ᵥ Pi.single i 1) + pii⁻¹ ^ 2 * S i i =
    (T * S * T) i i - 2 * (T * S * T) i ref + (T * S * T) ref ref := by
  have hsym : ∀ a b, S a b = S b a := fun a b => by
    conv_lhs => rw [← hS]
    rw [Matrix.transpose_apply]
  have hrow : ∀ k, (∑ k', S k k') = 0 := by
    intro k
    rw [Finset.sum_congr rfl fun k' _ => hsym k k']
    exact hcol k
  have hSones : S *ᵥ (fun _ => (1 : ℝ)) = 0 := by
    funext k
    simp only [Matrix.mulVec, Matrix.dotProduct, mul_one, Pi.zero_apply]
    exact hrow k
  have honesS : ∀ v : Fin (m + 1) → ℝ, (fun _ => (1 : ℝ)) ⬝ᵥ S *ᵥ v = 0 := by
    intro v
    rw [Matrix.dotProduct_mulVec]
    have hz : (fun _ => (1 : ℝ)) ᵥ* S = 0 := by
      funext k'
      simp only [Matrix.vecMul, Matrix.dotProduct, one_mul, Pi.zero_apply]
      exact hcol k'
    rw [hz, Matrix.zero_dotProduct]
  have hpu2 : pu' = (Pi.single i 1 - Pi.single ref 1) - pii⁻¹ • (B *ᵥ Pi.single i 1) := by
    funext k
    rw [hpu]
    simp only [Pi.sub_apply, Pi.smul_apply, smul_eq_mul, Pi.single_apply,
      Matrix.mulVec_single, mul_one]
    ring
  have hJ : (Matrix.of fun _ _ => (1 : ℝ) : Matrix (Fin (m + 1)) (Fin (m + 1)) ℝ) *ᵥ
      Pi.single i 1 = fun _ => (1 : ℝ) := by
    funext k
    rw [Matrix.mulVec_single]
    simp
  have hTB : T *ᵥ (B *ᵥ Pi.single i 1) =
      Pi.single i 1 - ((m + 1 : ℝ))⁻¹ • (fun _ => (1 : ℝ)) := by
    rw [Matrix.mulVec_mulVec, hproj, Matrix.sub_mulVec, Matrix.one_mulVec,
      Matrix.smul_mulVec_assoc, hJ]
  set A : Fin (m + 1) → ℝ := T *ᵥ (Pi.single i 1 - Pi.single ref 1) with hA
  set Bv : Fin (m + 1) → ℝ := Pi.single i 1 - ((m + 1 : ℝ))⁻¹ • (fun _ => (1 : ℝ)) with hBv
  have hvec : T *ᵥ pu' = A - pii⁻¹ • Bv := by
    rw [hpu2, Matrix.mulVec_sub, Matrix.mulVec_smul, hTB]
  have hSBv : S *ᵥ Bv = S *ᵥ Pi.single i 1 := by
    rw [hBv, Matrix.mulVec_sub, Matrix.mulVec_smul, hSones, smul_zero, sub_zero]
  have hBvS : ∀ v, Bv ⬝ᵥ S *ᵥ v = (S *ᵥ v) i := by
    intro v
    rw [hBv, Matrix.sub_dotProduct, Matrix.smul_dotProduct, honesS, smul_zero, sub_zero,
      Matrix.single_dotProduct, one_mul]
  have hQsym : Bv ⬝ᵥ S *ᵥ A = A ⬝ᵥ S *ᵥ Pi.single i 1 := by
    rw [hBvS, Matrix.mulVec_single]
    simp only [Matrix.mulVec, Matrix.dotProduct, mul_one]
    exact Finset.sum_congr rfl fun k _ => by rw [hsym i k]; ring
  have hBvSeI : Bv ⬝ᵥ S *ᵥ Pi.single i 1 = S i i := by
    rw [hBvS, Matrix.mulVec_single]
    simp
  have hexp1 : (T *ᵥ pu') ⬝ᵥ S *ᵥ (T *ᵥ pu') =
      A ⬝ᵥ S *ᵥ A - 2 * pii⁻¹ * (A ⬝ᵥ S *ᵥ Pi.single i 1) + pii⁻¹ ^ 2 * S i i := by
    rw [hvec, Matrix.mulVec_sub, Matrix.mulVec_smul, hSBv]
    simp only [Matrix.sub_dotProduct, Matrix.dotProduct_sub, Matrix.smul_dotProduct,
      Matrix.dotProduct_smul, smul_eq_mul]
    rw [hQsym, hBvSeI]
    ring
  have hexp2 : (T *ᵥ pu') ⬝ᵥ S *ᵥ Pi.single i 1 =
      A ⬝ᵥ S *ᵥ Pi.single i 1 - pii⁻¹ * S i i := by
    rw [hvec, Matrix.sub_dotProduct, Matrix.smul_dotProduct, hBvSeI]
    simp only [smul_eq_mul]
  have hdot : A ⬝ᵥ S *ᵥ A =
      (Pi.single i 1 - Pi.single ref 1) ⬝ᵥ (T * S * T) *ᵥ (Pi.single i 1 - Pi.single ref 1) := by
    have h1 : (T * S * T) *ᵥ (Pi.single i 1 - Pi.single ref 1) = T *ᵥ (S *ᵥ A) := by
      rw [hA, ← Matrix.mulVec_mulVec, ← Matrix.mulVec_mulVec]
    rw [h1]
    conv_rhs => rw [Matrix.dotProduct_mulVec]
    have hvT : (Pi.single i 1 - Pi.single ref 1) ᵥ* T = A := by
      conv_lhs => rw [← hT]
      rw [Matrix.vecMul_transpose, hA]
    rw [hvT]
  have hexpand : (Pi.single i 1 - Pi.single ref 1) ⬝ᵥ
        (T * S * T) *ᵥ (Pi.single i 1 - Pi.single ref 1) =
      (T * S * T) i i - (T * S * T) i ref - ((T * S * T) ref i - (T * S * T) ref ref) := by
    rw [Matrix.mulVec_sub, Matrix.mulVec_single, Matrix.mulVec_single,
      Matrix.sub_dotProduct, Matrix.single_dotProduct, Matrix.single_dotProduct]
    simp only [Pi.sub_apply, one_mul, mul_one]
  have hTsym : (T * S * T) ref i = (T * S * T) i ref := by
    have h : (T * S * T)ᵀ = T * S * T := by
      rw [Matrix.transpose_mul, Matrix.transpose_mul, hS, hT, Matrix.mul_assoc]
    conv_lhs => rw [← h]
    rw [Matrix.transpose_apply]
  have hfin : A ⬝ᵥ S *ᵥ A =
      (T * S * T) i i - 2 * (T * S * T) i ref + (T * S * T) ref ref := by
    rw [hdot, hexpand, hTsym]
    ring
  rw [hexp1, hexp2, hfin]
  ring

/-- At the fixed point the perturbation quadratic form at the target
potential collapses to the canonical shape handled by `quadform_reduce`. -/
theorem perturbVar_target (i ref : Fin (m + 1)) (hneff : ∀ k, 0 < d.neff k)
    (hconv : p0v d f = piv d) :
    Gpv d pinv f (fun j t => d.u j i t) ref ⬝ᵥ
        Ss0pv d f (fun j t => d.u j i t) *ᵥ Gpv d pinv f (fun j t => d.u j i t) ref =
      Dfup0v d pinv f (fun j t => d.u j i t) ref ⬝ᵥ
          Sp0v d f *ᵥ Dfup0v d pinv f (fun j t => d.u j i t) ref +
        2 * (piv d i)⁻¹ *
          (Dfup0v d pinv f (fun j t => d.u j i t) ref ⬝ᵥ Sp0v d f *ᵥ Pi.single i 1) +
        (piv d i)⁻¹ ^ 2 * Sp0v d f i i := by
  have hpiv := piv_pos d hneff i
  have hef : Real.exp (f i) ≠ 0 := (Real.exp_pos (f i)).ne'
  have hci : Real.exp (f i) * (Real.exp (f i) * piv d i)⁻¹ = (piv d i)⁻¹ := by
    field_simp
  rw [Gpv, Ss0pv, elim_dot_fromBlocks]
  show Dfup0v d pinv f (fun j t => d.u j i t) ref ⬝ᵥ
        Sp0v d f *ᵥ Dfup0v d pinv f (fun j t => d.u j i t) ref +
      Dfup0v d pinv f (fun j t => d.u j i t) ref ⬝ᵥ
        Sp0w0v d f (fun j t => d.u j i t) *ᵥ
          (fun _ => iw0v d f fun j t => d.u j i t) +
      ((fun _ => iw0v d f fun j t => d.u j i t) ⬝ᵥ
          (Sp0w0v d f fun j t => d.u j i t)ᵀ *ᵥ
            Dfup0v d pinv f (fun j t => d.u j i t) ref +
        (fun _ => iw0v d f fun j t => d.u j i t) ⬝ᵥ
          (Sw0v d f fun j t => d.u j i t) *ᵥ
            fun _ => iw0v d f fun j t => d.u j i t) = _
  have hWfun : Sp0w0v d f (fun j t => d.u j i t) *ᵥ
      (fun _ : Fin 1 => iw0v d f fun j t => d.u j i t) =
      fun k => (piv d i)⁻¹ * Sp0v d f k i := by
    funext k
    simp only [Matrix.mulVec, Matrix.dotProduct, Fin.sum_univ_one]
    rw [Sp0w0_target d f hneff i k 0, iw0_target d f hneff hconv i]
    calc (Real.exp (f i) * piv d i)⁻¹ * Sp0v d f k i * Real.exp (f i) =
        Real.exp (f i) * (Real.exp (f i) * piv d i)⁻¹ * Sp0v d f k i := by ring
      _ = (piv d i)⁻¹ * Sp0v d f k i := by rw [hci]
  have h2 : Dfup0v d pinv f (fun j t => d.u j i t) ref ⬝ᵥ
      (fun k => (piv d i)⁻¹ * Sp0v d f k i) =
      (piv d i)⁻¹ *
        (Dfup0v d pinv f (fun j t => d.u j i t) ref ⬝ᵥ Sp0v d f *ᵥ Pi.single i 1) := by
    rw [Matrix.mulVec_single]
    simp only [Matrix.dotProduct]
    rw [Finset.mul_sum]
    exact Finset.sum_congr rfl fun k _ => by ring
  have h3 : (fun _ : Fin 1 => iw0v d f fun j t => d.u j i t) ⬝ᵥ
      (Sp0w0v d f fun j t => d.u j i t)ᵀ *ᵥ
        Dfup0v d pinv f (fun j t => d.u j i t) ref =
      (piv d i)⁻¹ *
        (Dfup0v d pinv f (fun j t => d.u j i t) ref ⬝ᵥ Sp0v d f *ᵥ Pi.single i 1) := by
    simp only [Matrix.dotProduct, Matrix.mulVec, Matrix.transpose_apply, Fin.sum_univ_one]
    rw [iw0_target d f hneff hconv i]
    have hWk : ∀ k, Sp0w0v d f (fun j t => d.u j i t) k 0 =
        (Real.exp (f i) * piv d i)⁻¹ * Sp0v d f k i := fun k =>
      Sp0w0_target d f hneff i k 0
    simp only [hWk]
    rw [Finset.mul_sum, Finset.mul_sum]
    refine Finset.sum_congr rfl fun k _ => ?_
    have hsum : (∑ x, Sp0v d f k x * (Pi.single i 1 : Fin (m + 1) → ℝ) x) =
        Sp0v d f k i := by
      simp [Pi.single_apply]
    rw [hsum]
    calc Real.exp (f i) * ((Real.exp (f i) * piv d i)⁻¹ * Sp0v d f k i *
          Dfup0v d pinv f (fun j t => d.u j i t) ref k) =
        Real.exp (f i) * (Real.exp (f i) * piv d i)⁻¹ *
          (Sp0v d f k i * Dfup0v d pinv f (fun j t => d.u j i t) ref k) := by ring
      _ = (piv d i)⁻¹ * (Dfup0v d pinv f (fun j t => d.u j i t) ref k *
          Sp0v d f k i) := by rw [hci]; ring
  have h4 : (fun _ : Fin 1 => iw0v d f fun j t => d.u j i t) ⬝ᵥ
      (Sw0v d f fun j t => d.u j i t) *ᵥ
        (fun _ : Fin 1 => iw0v d f fun j t => d.u j i t) =
      (piv d i)⁻¹ ^ 2 * Sp0v d f i i := by
    simp only [Matrix.dotProduct, Matrix.mulVec, Fin.sum_univ_one]
    rw [Sw0_target d f hneff i 0 0, iw0_target d f hneff hconv i]
    calc Real.exp (f i) * ((Real.exp (f i) * piv d i)⁻¹ ^ 2 * Sp0v d f i i *
          Real.exp (f i)) =
        (Real.exp (f i) * (Real.exp (f i) * piv d i)⁻¹) ^ 2 * Sp0v d f i i := by ring
      _ = (piv d i)⁻¹ ^ 2 * Sp0v d f i i := by rw [hci]
  rw [hWfun, h2, h3, h4]
  ring

/-- Claim C1: at the exact self-consistent fixed point, reweighting with the
target potential equal to sampled state `i`'s own potential returns the
free-energy value and standard error that `free_energies` reports for state
`i` (exactly, in the real-number model).  The hypotheses state positivity of
the effective sample sizes, nonempty samples and blocks, the fixed-point
equation `p0 = pi`, and that `pinv` returned a genuine Moore-Penrose
pseudo-inverse acting as the centred projection (the spec asserts `B0` has
rank `m - 1` with the uniform null vector by construction). -/
theorem claim_c1 (i : Fin (m + 1))
    (hneff : ∀ k, 0 < d.neff k) (hn : ∀ j, d.n j ≠ 0) (hb : ∀ j, d.b j ≠ 0)
    (hconv : p0v d f = piv d)
    (hMP : IsMoorePenrose (B0v d f) (iB0v d pinv f))
    (hproj : iB0v d pinv f * B0v d f =
      1 - ((m + 1 : ℝ))⁻¹ • Matrix.of fun _ _ => (1 : ℝ)) :
    (reweight d pinv f (fun j t => d.u j i t) y ref).1 (Sum.inl 0) =
      (free_energies (m + 1) f (Thetav d pinv f) ref).1 i ∧
    Real.sqrt ((reweight d pinv f (fun j t => d.u j i t) y ref).2
        (Sum.inl 0) (Sum.inl 0)) =
      (free_energies (m + 1) f (Thetav d pinv f) ref).2 i := by
  constructor
  · show fuv d f (fun j t => d.u j i t) ref = f i - f ref
    rw [fuv, iw0_target d f hneff hconv i, Real.log_exp]
  · show Real.sqrt (ThetaTv d pinv f (fun j t => d.u j i t) y ref
        (Sum.inl 0) (Sum.inl 0)) =
      Real.sqrt (Thetav d pinv f i i - 2 * Thetav d pinv f i ref +
        Thetav d pinv f ref ref)
    congr 1
    rw [thetaT_entry00, perturbVar_target d pinv f i ref hneff hconv]
    have hT : (iB0v d pinv f)ᵀ = iB0v d pinv f :=
      isMoorePenrose_symm (B0v_symm d f) hMP
    have hpuR : puRefv d f (fun j t => d.u j i t) ref = fun k =>
        ((if k = i then 1 else 0) - (piv d i)⁻¹ * B0v d f k i) -
          (if k = ref then 1 else 0) := by
      funext k
      rw [puRefv, puv_target d f hneff hconv i k]
    exact quadform_reduce (Sp0v d f) (iB0v d pinv f) (B0v d f) (Sp0v_symm d f) hT
      (Sp0_col_sum d f hn hb) hproj (piv d i) i ref
      (puRefv d f (fun j t => d.u j i t) ref) hpuR

/-- The centred-projection identity for the degenerate one-state mixture. -/
theorem dUnit_proj : iB0v dUnit pinvZero fUnit * B0v dUnit fUnit =
    1 - (((0 : ℕ) : ℝ) + 1)⁻¹ • Matrix.of fun _ _ => (1 : ℝ) := by
  rw [iB0v_dUnit, Matrix.zero_mul]
  ext k k'
  have hk : k = 0 := Fin.ext (Nat.lt_one_iff.mp k.isLt)
  have hk' : k' = 0 := Fin.ext (Nat.lt_one_iff.mp k'.isLt)
  subst hk hk'
  simp only [Matrix.zero_apply, Matrix.sub_apply, Matrix.one_apply_eq,
    Matrix.smul_apply, Matrix.of_apply, smul_eq_mul]
  norm_num

/-- Witness for claim C1: the degenerate one-state mixture at its exact
fixed point, with target potential equal to the single state's own
potential. -/
theorem claim_c1_witness :
    (reweight dUnit pinvZero fUnit (fun j t => dUnit.u j 0 t)
        (fun _ (_ : Fin 0) _ => (0 : ℝ)) 0).1 (Sum.inl 0) =
      (free_energies (0 + 1) fUnit (Thetav dUnit pinvZero fUnit) 0).1 0 ∧
    Real.sqrt ((reweight dUnit pinvZero fUnit (fun j t => dUnit.u j 0 t)
        (fun _ (_ : Fin 0) _ => (0 : ℝ)) 0).2 (Sum.inl 0) (Sum.inl 0)) =
      (free_energies (0 + 1) fUnit (Thetav dUnit pinvZero fUnit) 0).2 0 :=
  claim_c1 dUnit pinvZero fUnit (fun _ (_ : Fin 0) _ => (0 : ℝ)) 0 0
    (fun _ => one_pos) (fun _ => one_ne_zero) (fun _ => one_ne_zero)
    p0v_dUnit dUnit_moorePenrose dUnit_proj

end Mics
